import Mathlib

/-!
A shallow embedding of the fixed-block-size memory-pool allocator from
`src/main.c` (`struct mem_pool`, `pool_init`, `pool_alloc`, `pool_free`),
together with proofs about it.

Modelling conventions:
* `size_t` values are natural numbers; arithmetic that the C code performs in
  `size_t` and that can wrap (the capacity product `block_size * free_blocks`
  and the ceiling numerator `size + block_size - 1` in `pool_alloc`, and the
  returned pointer offset `i * block_size`) is taken modulo `WSIZE = 2 ^ 64`,
  exactly as a 64-bit `size_t` does.
* `ssize_t` table entries are integers.  The cast `(ssize_t)num_blocks_needed`
  is modelled exactly: a marked run length is at most `num_blocks`, and a pool
  whose metadata table (of `num_blocks` eight-byte entries) is actually
  allocatable has `num_blocks < 2 ^ 61 < 2 ^ 63`, so the cast never wraps.
* Pointers handed to the allocator's caller are represented by their byte
  offset from `pool->memory` (the base itself is kept as an opaque number in
  the `memory` field); the null pointer is `Option.none`.
* `malloc` success inside `pool_init` is an oracle: the two calls are
  represented by two `Bool` parameters.
* The `!pool` checks on a null pool handle are dropped: the model's functions
  take a `MemPool` value directly.
-/

/-- `2 ^ 64`, the modulus of a 64-bit `size_t`. -/
def WSIZE : Nat := 2 ^ 64

/-- The `struct mem_pool` of `src/main.c`.  `allocation_sizes` is the
allocation table: `0` marks a free block, a positive `N` the head of a run of
`N` blocks, `-1` a continuation block. -/
structure MemPool where
  memory : Nat
  block_size : Nat
  num_blocks : Nat
  free_blocks : Nat
  allocation_sizes : List Int
deriving DecidableEq, Repr

/-- Total lookup in the allocation table with an explicit default for
out-of-range indices (C would read out of bounds there). -/
def entry (tbl : List Int) (i : Nat) (d : Int) : Int :=
  match tbl, i with
  | [], _ => d
  | e :: _, 0 => e
  | _ :: rest, n + 1 => entry rest n d

/-- The number of table entries equal to `0`, i.e. the number of free
blocks actually recorded in the table. -/
def zero_count : List Int → Nat
  | [] => 0
  | e :: rest => (if e = 0 then 1 else 0) + zero_count rest

/-- `fill_range v tbl i n` writes `v` into positions `i, i+1, …, i+n-1` of
`tbl` (writes past the end are dropped, as `List.set` ignores them); this is
the shape of the two marking loops in `pool_alloc` and `pool_free`. -/
def fill_range (v : Int) : List Int → Nat → Nat → List Int
  | tbl, _, 0 => tbl
  | tbl, i, n + 1 => fill_range v (tbl.set i v) (i + 1) n

/-- The inner loop of `pool_alloc` (lines 71-77 of `src/main.c`): do the
`needed` entries starting at `i` all hold `0`?  Out-of-range reads are treated
as non-zero. -/
def run_free (tbl : List Int) (i needed : Nat) : Bool :=
  (List.range needed).all (fun j => entry tbl (i + j) 1 == 0)

/-- The search loop of `pool_alloc` (lines 65-94 of `src/main.c`): starting
from index `i`, find the first index at which `needed` contiguous free blocks
fit below `num_blocks`.  The loop body runs at most `num_blocks + 1 - i`
times, so that much fuel makes the recursion total without changing the
result. -/
def find_first_fit (tbl : List Int) (needed num_blocks : Nat) :
    Nat → Nat → Option Nat
  | 0, _ => none
  | fuel + 1, i =>
    if i + needed ≤ num_blocks then
      if entry tbl i 1 ≠ 0 then find_first_fit tbl needed num_blocks fuel (i + 1)
      else if run_free tbl i needed then some i
      else find_first_fit tbl needed num_blocks fuel (i + 1)
    else none

/-- `pool_init` (lines 20-49 of `src/main.c`).  `memory` is the caller's base
address, `none` for a null pointer; `ctrl_ok` and `table_ok` are the outcomes
of the two `malloc` calls. -/
def pool_init (memory : Option Nat) (block_size num_blocks : Nat)
    (ctrl_ok table_ok : Bool) : Option MemPool :=
  match memory with
  | none => none
  | some m =>
    if block_size = 0 ∨ num_blocks = 0 then none
    else if ctrl_ok = false then none
    else if table_ok = false then none
    else some
      { memory := m
        block_size := block_size
        num_blocks := num_blocks
        free_blocks := num_blocks
        allocation_sizes := List.replicate num_blocks 0 }

/-- `pool_alloc` (lines 52-98 of `src/main.c`).  Returns the byte offset of
the allocation from `pool->memory` (or `none` on failure) together with the
updated pool. -/
def pool_alloc (p : MemPool) (size : Nat) : Option Nat × MemPool :=
  if size = 0 then (none, p)
  else if (p.block_size * p.free_blocks) % WSIZE < size then (none, p)
  else
    let needed := ((size + p.block_size - 1) % WSIZE) / p.block_size
    match find_first_fit p.allocation_sizes needed p.num_blocks
        (p.num_blocks + 1) 0 with
    | none => (none, p)
    | some i =>
      (some ((i * p.block_size) % WSIZE),
       { p with
         allocation_sizes :=
           fill_range (-1) (p.allocation_sizes.set i (needed : Int))
             (i + 1) (needed - 1)
         free_blocks := p.free_blocks - needed })

/-- `pool_free` (lines 101-137 of `src/main.c`).  `ptr` is the byte offset of
the pointer from `pool->memory`, `none` for a null pointer. -/
def pool_free (p : MemPool) (ptr : Option Nat) : MemPool :=
  match ptr with
  | none => p
  | some offset =>
    if offset % p.block_size ≠ 0 then p
    else if p.num_blocks ≤ offset / p.block_size then p
    else
      let block_index := offset / p.block_size
      let n := entry p.allocation_sizes block_index 0
      if n ≤ 0 then p
      else if p.num_blocks < block_index + n.toNat then p
      else
        { p with
          allocation_sizes :=
            fill_range 0 p.allocation_sizes block_index n.toNat
          free_blocks := p.free_blocks + n.toNat }

/-- Entry `i` of the table is one of the three legal values: `0` (free),
`-1` (continuation), or a positive head count. -/
def EntryOk (tbl : List Int) (i : Nat) : Prop :=
  entry tbl i 0 = 0 ∨ entry tbl i 0 = -1 ∨ 0 < entry tbl i 0

/-- If entry `i` is a head of value `N`, the run fits (`i + N ≤ num_blocks`)
and entries `i+1 … i+N-1` all hold `-1`. -/
def HeadOk (tbl : List Int) (num_blocks i : Nat) : Prop :=
  0 < entry tbl i 0 →
    i + (entry tbl i 0).toNat ≤ num_blocks ∧
    ∀ j, j < i + (entry tbl i 0).toNat → i < j → entry tbl j 0 = -1

/-- The allocation-table invariant: the table has length `num_blocks`,
`free_blocks` equals the number of zero entries, and every entry is legal
with every head describing an intact run. -/
def TableInv (p : MemPool) : Prop :=
  p.allocation_sizes.length = p.num_blocks ∧
  p.free_blocks = zero_count p.allocation_sizes ∧
  ∀ i, i < p.num_blocks →
    EntryOk p.allocation_sizes i ∧ HeadOk p.allocation_sizes p.num_blocks i

/-- Structural well-formedness of a pool value: positive, `size_t`-sized
geometry and a table of the right length. -/
def WF (p : MemPool) : Prop :=
  0 < p.block_size ∧ 0 < p.num_blocks ∧
  p.block_size < WSIZE ∧ p.num_blocks < WSIZE ∧ p.free_blocks < WSIZE ∧
  p.allocation_sizes.length = p.num_blocks

/-- The pool states reachable from a successful `pool_init` by any sequence
of `pool_alloc` and `pool_free` calls with `size_t`-sized requests. -/
inductive Reachable : MemPool → Prop
  | init (m block_size num_blocks : Nat) (p : MemPool) :
      block_size < WSIZE → num_blocks < WSIZE →
      pool_init (some m) block_size num_blocks true true = some p →
      Reachable p
  | step_alloc (p : MemPool) (size : Nat) :
      Reachable p → size < WSIZE → Reachable (pool_alloc p size).2
  | step_free (p : MemPool) (ptr : Option Nat) :
      Reachable p → Reachable (pool_free p ptr)

/-- Exact (non-wrapping) ceiling division, as the spec's
`ceil(size / block_size)`. -/
def cdiv (a b : Nat) : Nat := (a + b - 1) / b

/-- The spec's notion of a fitting position: `bn` contiguous free blocks
starting at `i`, staying below `num_blocks`. -/
def FitsAt (p : MemPool) (bn i : Nat) : Prop :=
  i + bn ≤ p.num_blocks ∧ ∀ j, j < bn → entry p.allocation_sizes (i + j) 1 = 0

instance (tbl : List Int) (i : Nat) : Decidable (EntryOk tbl i) := by
  unfold EntryOk; infer_instance

instance (tbl : List Int) (num_blocks i : Nat) :
    Decidable (HeadOk tbl num_blocks i) := by
  unfold HeadOk; infer_instance

instance (p : MemPool) : Decidable (TableInv p) := by
  unfold TableInv; infer_instance

instance (p : MemPool) : Decidable (WF p) := by
  unfold WF; infer_instance

instance (p : MemPool) (bn i : Nat) : Decidable (FitsAt p bn i) := by
  unfold FitsAt; infer_instance

/-! ## Basic lemmas about `entry`, `zero_count` and `fill_range` -/

theorem entry_oob (tbl : List Int) (j : Nat) (d : Int) (h : tbl.length ≤ j) :
    entry tbl j d = d := by
  induction tbl generalizing j with
  | nil => rfl
  | cons e rest ih =>
    cases j with
    | zero => simp at h
    | succ k => exact ih k (by simpa using h)

theorem entry_indep (tbl : List Int) (j : Nat) (d e : Int)
    (h : j < tbl.length) : entry tbl j d = entry tbl j e := by
  induction tbl generalizing j with
  | nil => simp at h
  | cons a rest ih =>
    cases j with
    | zero => rfl
    | succ k => exact ih k (by simpa using h)

theorem entry_set (tbl : List Int) (i j : Nat) (v d : Int) :
    entry (tbl.set i v) j d =
      if i = j ∧ j < tbl.length then v else entry tbl j d := by
  induction tbl generalizing i j with
  | nil => simp [List.set]
  | cons e rest ih =>
    cases i with
    | zero =>
      cases j with
      | zero => simp [List.set, entry]
      | succ k => simp [List.set, entry]
    | succ n =>
      cases j with
      | zero => simp [List.set, entry]
      | succ k =>
        simp only [List.set, entry, List.length_cons]
        rw [ih]
        by_cases hnk : n = k ∧ k < rest.length
        · rw [if_pos hnk, if_pos (by omega)]
        · rw [if_neg hnk, if_neg (by omega)]

theorem entry_replicate (n j : Nat) (d : Int) :
    entry (List.replicate n (0 : Int)) j d = if j < n then 0 else d := by
  induction n generalizing j with
  | zero => simp [List.replicate, entry_oob]
  | succ m ih =>
    cases j with
    | zero => simp [List.replicate, entry]
    | succ k => simp [List.replicate, entry, ih, Nat.succ_lt_succ_iff]

theorem zero_count_set (tbl : List Int) (i : Nat) (v : Int)
    (h : i < tbl.length) :
    zero_count (tbl.set i v) + (if entry tbl i 0 = 0 then 1 else 0) =
      zero_count tbl + (if v = 0 then 1 else 0) := by
  induction tbl generalizing i with
  | nil => simp at h
  | cons e rest ih =>
    cases i with
    | zero => simp [List.set, zero_count, entry]; omega
    | succ k =>
      have hk : k < rest.length := by simpa using h
      simp only [List.set, zero_count, entry]
      have := ih k hk
      omega

theorem length_fill_range (v : Int) (tbl : List Int) (i n : Nat) :
    (fill_range v tbl i n).length = tbl.length := by
  induction n generalizing tbl i with
  | zero => rfl
  | succ m ih => simp [fill_range, ih]

theorem entry_fill_range (v : Int) (tbl : List Int) (i n j : Nat) (d : Int) :
    entry (fill_range v tbl i n) j d =
      if i ≤ j ∧ j < i + n ∧ j < tbl.length then v else entry tbl j d := by
  induction n generalizing tbl i with
  | zero =>
    simp only [fill_range]
    exact (if_neg (by omega : ¬(i ≤ j ∧ j < i + 0 ∧ j < tbl.length))).symm
  | succ m ih =>
    simp only [fill_range]
    rw [ih, List.length_set, entry_set]
    by_cases hc : i + 1 ≤ j ∧ j < i + 1 + m ∧ j < tbl.length
    · rw [if_pos hc, if_pos (by omega)]
    · rw [if_neg hc]
      by_cases hd : i = j ∧ j < tbl.length
      · rw [if_pos hd, if_pos (by omega)]
      · rw [if_neg hd, if_neg (by omega)]

theorem zero_count_fill_zero (tbl : List Int) (i n : Nat)
    (hle : i + n ≤ tbl.length)
    (hall : ∀ k, k < n → entry tbl (i + k) 0 ≠ 0) :
    zero_count (fill_range 0 tbl i n) = zero_count tbl + n := by
  induction n generalizing tbl i with
  | zero => rfl
  | succ m ih =>
    simp only [fill_range]
    have hi : i < tbl.length := by omega
    have hset := zero_count_set tbl i 0 hi
    have h0 := hall 0 (by omega)
    simp only [Nat.add_zero] at h0
    rw [if_neg h0, if_pos rfl] at hset
    have hrec := ih (tbl.set i 0) (i + 1)
      (by rw [List.length_set]; omega)
      (fun k hk => by
        rw [entry_set,
          if_neg (by omega : ¬(i = i + 1 + k ∧ i + 1 + k < tbl.length))]
        have h2 := hall (k + 1) (by omega)
        have he : i + (k + 1) = i + 1 + k := by omega
        rwa [he] at h2)
    rw [hrec]
    omega

theorem zero_count_fill_nonzero (v : Int) (hv : v ≠ 0) (tbl : List Int)
    (i n : Nat) (hle : i + n ≤ tbl.length)
    (hall : ∀ k, k < n → entry tbl (i + k) 0 = 0) :
    zero_count (fill_range v tbl i n) + n = zero_count tbl := by
  induction n generalizing tbl i with
  | zero => rfl
  | succ m ih =>
    simp only [fill_range]
    have hi : i < tbl.length := by omega
    have hset := zero_count_set tbl i v hi
    have h0 := hall 0 (by omega)
    simp only [Nat.add_zero] at h0
    rw [if_pos h0, if_neg hv] at hset
    have hrec := ih (tbl.set i v) (i + 1)
      (by rw [List.length_set]; omega)
      (fun k hk => by
        rw [entry_set,
          if_neg (by omega : ¬(i = i + 1 + k ∧ i + 1 + k < tbl.length))]
        have h2 := hall (k + 1) (by omega)
        have he : i + (k + 1) = i + 1 + k := by omega
        rwa [he] at h2)
    omega

theorem zero_count_replicate (n : Nat) :
    zero_count (List.replicate n (0 : Int)) = n := by
  induction n with
  | zero => rfl
  | succ m ih => simp [List.replicate, zero_count, ih, Nat.add_comm]

theorem list_eq_of_entry (tbl tbl2 : List Int)
    (hlen : tbl.length = tbl2.length)
    (h : ∀ j, j < tbl.length → entry tbl j 0 = entry tbl2 j 0) :
    tbl = tbl2 := by
  induction tbl generalizing tbl2 with
  | nil => cases tbl2 with
    | nil => rfl
    | cons b bs => simp at hlen
  | cons a rest ih =>
    cases tbl2 with
    | nil => simp at hlen
    | cons b bs =>
      have h0 := h 0 (by simp)
      simp [entry] at h0
      subst h0
      have := ih bs (by simpa using hlen)
        (fun j hj => h (j + 1) (by simpa using Nat.succ_lt_succ hj))
      rw [this]

/-! ## The search loop of `pool_alloc` -/

theorem run_free_iff (tbl : List Int) (i n : Nat) :
    run_free tbl i n = true ↔ ∀ j, j < n → entry tbl (i + j) 1 = 0 := by
  simp [run_free, List.all_eq_true, List.mem_range, beq_iff_eq]

theorem fff_some (tbl : List Int) (needed nb fuel i r : Nat)
    (h : find_first_fit tbl needed nb fuel i = some r) :
    i ≤ r ∧ r + needed ≤ nb ∧ entry tbl r 1 = 0 ∧
      run_free tbl r needed = true ∧
      ∀ t, i ≤ t → t < r →
        ¬(entry tbl t 1 = 0 ∧ run_free tbl t needed = true) := by
  induction fuel generalizing i with
  | zero => simp [find_first_fit] at h
  | succ f ih =>
    simp only [find_first_fit] at h
    by_cases hb : i + needed ≤ nb
    · rw [if_pos hb] at h
      by_cases he : entry tbl i 1 ≠ 0
      · rw [if_pos he] at h
        obtain ⟨h1, h2, h3, h4, h5⟩ := ih (i + 1) h
        refine ⟨by omega, h2, h3, h4, fun t ht1 ht2 => ?_⟩
        by_cases hti : t = i
        · subst hti; rintro ⟨hc, _⟩; exact he hc
        · exact h5 t (by omega) ht2
      · rw [if_neg he] at h
        push_neg at he
        by_cases hr : run_free tbl i needed = true
        · rw [if_pos hr] at h
          cases h
          exact ⟨Nat.le_refl _, hb, he, hr, fun t ht1 ht2 => by omega⟩
        · rw [if_neg hr] at h
          obtain ⟨h1, h2, h3, h4, h5⟩ := ih (i + 1) h
          refine ⟨by omega, h2, h3, h4, fun t ht1 ht2 => ?_⟩
          by_cases hti : t = i
          · subst hti; rintro ⟨_, hc⟩; exact hr hc
          · exact h5 t (by omega) ht2
    · rw [if_neg hb] at h
      exact absurd h (by simp)

theorem fff_none (tbl : List Int) (needed nb fuel i : Nat)
    (hfuel : nb + 1 ≤ fuel + i)
    (h : find_first_fit tbl needed nb fuel i = none) :
    ∀ t, i ≤ t → t + needed ≤ nb →
      ¬(entry tbl t 1 = 0 ∧ run_free tbl t needed = true) := by
  induction fuel generalizing i with
  | zero => intro t ht1 ht2; omega
  | succ f ih =>
    simp only [find_first_fit] at h
    by_cases hb : i + needed ≤ nb
    · rw [if_pos hb] at h
      by_cases he : entry tbl i 1 ≠ 0
      · rw [if_pos he] at h
        intro t ht1 ht2
        by_cases hti : t = i
        · subst hti; rintro ⟨hc, _⟩; exact he hc
        · exact ih (i + 1) (by omega) h t (by omega) ht2
      · rw [if_neg he] at h
        by_cases hr : run_free tbl i needed = true
        · rw [if_pos hr] at h; simp at h
        · rw [if_neg hr] at h
          intro t ht1 ht2
          by_cases hti : t = i
          · subst hti; rintro ⟨_, hc⟩; exact hr hc
          · exact ih (i + 1) (by omega) h t (by omega) ht2
    · intro t ht1 ht2
      exfalso
      omega

/-! ## Case analyses of the two operations -/

theorem entry_lt_length (tbl : List Int) (i : Nat) (h : entry tbl i 1 = 0) :
    i < tbl.length := by
  by_contra hge
  rw [entry_oob tbl i 1 (by omega)] at h
  exact one_ne_zero h

theorem pool_alloc_cases (p : MemPool) (size : Nat) :
    pool_alloc p size = (none, p) ∨
    ∃ i,
      find_first_fit p.allocation_sizes
          (((size + p.block_size - 1) % WSIZE) / p.block_size) p.num_blocks
          (p.num_blocks + 1) 0 = some i ∧
      pool_alloc p size =
        (some ((i * p.block_size) % WSIZE),
         { p with
           allocation_sizes :=
             fill_range (-1)
               (p.allocation_sizes.set i
                 ((((size + p.block_size - 1) % WSIZE) / p.block_size : Nat) : Int))
               (i + 1) (((size + p.block_size - 1) % WSIZE) / p.block_size - 1)
           free_blocks :=
             p.free_blocks -
               ((size + p.block_size - 1) % WSIZE) / p.block_size }) ∧
      size ≠ 0 ∧ ¬((p.block_size * p.free_blocks) % WSIZE < size) := by
  by_cases h0 : size = 0
  · left; simp [pool_alloc, h0]
  · by_cases h1 : (p.block_size * p.free_blocks) % WSIZE < size
    · left; simp [pool_alloc, h0, h1]
    · cases hf : find_first_fit p.allocation_sizes
          (((size + p.block_size - 1) % WSIZE) / p.block_size) p.num_blocks
          (p.num_blocks + 1) 0 with
      | none => left; simp [pool_alloc, h0, h1, hf]
      | some i =>
        right
        exact ⟨i, rfl, by simp [pool_alloc, h0, h1, hf], h0, h1⟩

theorem pool_free_cases (p : MemPool) (ptr : Option Nat) :
    pool_free p ptr = p ∨
    ∃ off,
      ptr = some off ∧ off % p.block_size = 0 ∧
      off / p.block_size < p.num_blocks ∧
      0 < entry p.allocation_sizes (off / p.block_size) 0 ∧
      off / p.block_size +
          (entry p.allocation_sizes (off / p.block_size) 0).toNat ≤
        p.num_blocks ∧
      pool_free p ptr =
        { p with
          allocation_sizes :=
            fill_range 0 p.allocation_sizes (off / p.block_size)
              (entry p.allocation_sizes (off / p.block_size) 0).toNat
          free_blocks :=
            p.free_blocks +
              (entry p.allocation_sizes (off / p.block_size) 0).toNat } := by
  cases ptr with
  | none => left; rfl
  | some off =>
    by_cases h1 : off % p.block_size ≠ 0
    · left; simp [pool_free, h1]
    · by_cases h2 : p.num_blocks ≤ off / p.block_size
      · left; simp [pool_free, h1, h2]
      · by_cases h3 : entry p.allocation_sizes (off / p.block_size) 0 ≤ 0
        · left; simp [pool_free, h1, h2, h3]
        · by_cases h4 : p.num_blocks <
              off / p.block_size +
                (entry p.allocation_sizes (off / p.block_size) 0).toNat
          · left; simp [pool_free, h1, h2, h3, h4]
          · right
            refine ⟨off, rfl, by omega, by omega, by omega, by omega, ?_⟩
            simp [pool_free, h1, h2, h3, h4]

/-! ## Preservation of the table invariant -/

theorem tableInv_init (memory : Option Nat) (bs nb : Nat) (c t : Bool)
    (p : MemPool) (h : pool_init memory bs nb c t = some p) : TableInv p := by
  cases memory with
  | none => simp [pool_init] at h
  | some m =>
    simp only [pool_init] at h
    by_cases h1 : bs = 0 ∨ nb = 0
    · rw [if_pos h1] at h; cases h
    · rw [if_neg h1] at h
      by_cases h2 : c = false
      · rw [if_pos h2] at h; cases h
      · rw [if_neg h2] at h
        by_cases h3 : t = false
        · rw [if_pos h3] at h; cases h
        · rw [if_neg h3] at h
          injection h with h
          subst h
          refine ⟨by simp, ?_, ?_⟩
          · show nb = zero_count (List.replicate nb 0)
            rw [zero_count_replicate]
          · intro i hi
            have hi' : i < nb := hi
            constructor
            · show entry (List.replicate nb 0) i 0 = 0 ∨
                entry (List.replicate nb 0) i 0 = -1 ∨
                0 < entry (List.replicate nb 0) i 0
              left
              rw [entry_replicate, if_pos hi']
            · intro hpos
              rw [entry_replicate, if_pos hi'] at hpos
              exact absurd hpos (lt_irrefl 0)

theorem tableInv_alloc (p : MemPool) (size : Nat) (h : TableInv p) :
    TableInv (pool_alloc p size).2 := by
  rcases pool_alloc_cases p size with hc | ⟨i, hf, he, -, -⟩
  · rw [hc]; exact h
  · rw [he]
    obtain ⟨hlen, hfree, hok⟩ := h
    set tbl := p.allocation_sizes with htbl
    set needed := ((size + p.block_size - 1) % WSIZE) / p.block_size
      with hneed
    obtain ⟨-, hbound, hent, hrun, -⟩ :=
      fff_some tbl needed p.num_blocks (p.num_blocks + 1) 0 i hf
    have hilen : i < tbl.length := entry_lt_length tbl i hent
    have hzero : ∀ j, j < needed → entry tbl (i + j) 0 = 0 := by
      intro j hj
      have h1 := (run_free_iff tbl i needed).mp hrun j hj
      have h2 : i + j < tbl.length := by omega
      rw [entry_indep tbl (i + j) 0 1 h2]
      exact h1
    have hz0 : entry tbl i 0 = 0 := by
      rw [entry_indep tbl i 0 1 hilen]; exact hent
    set T := fill_range (-1) (tbl.set i (needed : Int)) (i + 1) (needed - 1)
      with hT
    have hlenT : T.length = p.num_blocks := by
      rw [hT, length_fill_range, List.length_set, hlen]
    have D : ∀ j, entry T j 0 =
        if j = i then (needed : Int)
        else if i < j ∧ j < i + needed ∧ j < tbl.length then -1
        else entry tbl j 0 := by
      intro j
      rw [hT, entry_fill_range, List.length_set, entry_set]
      by_cases hji : j = i
      · subst hji
        rw [if_neg (by omega), if_pos ⟨rfl, hilen⟩, if_pos rfl]
      · rw [if_neg hji]
        by_cases hmid : i + 1 ≤ j ∧ j < i + 1 + (needed - 1) ∧ j < tbl.length
        · rw [if_pos hmid, if_pos (by omega)]
        · rw [if_neg hmid, if_neg (fun hh => hji hh.1.symm), if_neg (by omega)]
    refine ⟨hlenT, ?_, ?_⟩
    · show p.free_blocks - needed = zero_count T
      rcases Nat.eq_zero_or_pos needed with h0 | hpos
      · have hTtbl : T = tbl := by
          apply list_eq_of_entry
          · rw [hlenT, hlen]
          · intro j hj
            rw [D j]
            by_cases hji : j = i
            · subst hji
              rw [if_pos rfl, h0, hz0]
              rfl
            · rw [if_neg hji, if_neg (by omega)]
        rw [hTtbl]
        omega
      · have hne : (needed : Int) ≠ 0 := Int.natCast_ne_zero.mpr (by omega)
        have hstep1 := zero_count_set tbl i (needed : Int) hilen
        rw [if_pos hz0, if_neg hne] at hstep1
        have hstep2 : zero_count T + (needed - 1) =
            zero_count (tbl.set i (needed : Int)) := by
          apply zero_count_fill_nonzero (-1) (by norm_num)
          · rw [List.length_set]; omega
          · intro k hk
            rw [entry_set, if_neg (by omega)]
            have h3 := hzero (k + 1) (by omega)
            have he2 : i + (k + 1) = i + 1 + k := by omega
            rwa [he2] at h3
        omega
    · intro j hj
      have hj' : j < p.num_blocks := hj
      show EntryOk T j ∧ HeadOk T p.num_blocks j
      constructor
      · show entry T j 0 = 0 ∨ entry T j 0 = -1 ∨ 0 < entry T j 0
        rw [D j]
        by_cases hji : j = i
        · rw [if_pos hji]
          rcases Nat.eq_zero_or_pos needed with h0 | hpos
          · left; rw [h0]; rfl
          · right; right; exact_mod_cast hpos
        · rw [if_neg hji]
          by_cases hmid : i < j ∧ j < i + needed ∧ j < tbl.length
          · rw [if_pos hmid]; right; left; rfl
          · rw [if_neg hmid]; exact (hok j hj').1
      · intro hpos
        by_cases hji : j = i
        · subst hji
          have hTi : entry T j 0 = (needed : Int) := by rw [D j, if_pos rfl]
          have htn : (entry T j 0).toNat = needed := by
            rw [hTi]; exact Int.toNat_natCast needed
          have hposn : 0 < needed := by
            rw [hTi] at hpos; exact_mod_cast hpos
          rw [htn]
          refine ⟨by omega, fun k hk1 hk2 => ?_⟩
          rw [D k, if_neg (by omega), if_pos ⟨hk2, hk1, by omega⟩]
        · by_cases hmid : i < j ∧ j < i + needed ∧ j < tbl.length
          · exfalso
            have hTj : entry T j 0 = -1 := by rw [D j, if_neg hji, if_pos hmid]
            rw [hTj] at hpos
            exact absurd hpos (by norm_num)
          · have hTj : entry T j 0 = entry tbl j 0 := by
              rw [D j, if_neg hji, if_neg hmid]
            rw [hTj] at hpos ⊢
            obtain ⟨hNb, hrunj⟩ := (hok j hj').2 hpos
            refine ⟨hNb, fun k hk1 hk2 => ?_⟩
            have holdk : entry tbl k 0 = -1 := hrunj k hk1 hk2
            have hki : k ≠ i := by
              intro hk
              subst hk
              rw [hz0] at holdk
              exact absurd holdk (by norm_num)
            have hkmid : ¬(i < k ∧ k < i + needed ∧ k < tbl.length) := by
              rintro ⟨hm1, hm2, hm3⟩
              have h4 := hzero (k - i) (by omega)
              have he3 : i + (k - i) = k := by omega
              rw [he3] at h4
              rw [h4] at holdk
              exact absurd holdk (by norm_num)
            rw [D k, if_neg hki, if_neg hkmid]
            exact holdk

theorem tableInv_free (p : MemPool) (ptr : Option Nat) (h : TableInv p) :
    TableInv (pool_free p ptr) := by
  rcases pool_free_cases p ptr with hc | ⟨off, -, -, hbi, hpos, hbound, he⟩
  · rw [hc]; exact h
  · rw [he]
    obtain ⟨hlen, hfree, hok⟩ := h
    set tbl := p.allocation_sizes with htbl
    set bi := off / p.block_size with hbidef
    set n := (entry tbl bi 0).toNat with hn
    obtain ⟨hbN, hrun⟩ := (hok bi hbi).2 hpos
    have hnpos : 0 < n := by omega
    have D2 : ∀ k, entry (fill_range 0 tbl bi n) k 0 =
        if bi ≤ k ∧ k < bi + n ∧ k < tbl.length then 0 else entry tbl k 0 :=
      fun k => entry_fill_range 0 tbl bi n k 0
    refine ⟨?_, ?_, ?_⟩
    · show (fill_range 0 tbl bi n).length = p.num_blocks
      rw [length_fill_range]; exact hlen
    · show p.free_blocks + n = zero_count (fill_range 0 tbl bi n)
      rw [zero_count_fill_zero tbl bi n (by omega) ?hall]
      · omega
      case hall =>
        intro k hk
        rcases Nat.eq_zero_or_pos k with rfl | hk0
        · rw [Nat.add_zero]; omega
        · rw [hrun (bi + k) (by omega) (by omega)]
          norm_num
    · intro j hj
      have hj' : j < p.num_blocks := hj
      show EntryOk (fill_range 0 tbl bi n) j ∧
        HeadOk (fill_range 0 tbl bi n) p.num_blocks j
      constructor
      · show entry (fill_range 0 tbl bi n) j 0 = 0 ∨
          entry (fill_range 0 tbl bi n) j 0 = -1 ∨
          0 < entry (fill_range 0 tbl bi n) j 0
        rw [D2 j]
        by_cases hm : bi ≤ j ∧ j < bi + n ∧ j < tbl.length
        · rw [if_pos hm]; left; rfl
        · rw [if_neg hm]; exact (hok j hj').1
      · intro hpj
        have hjm : ¬(bi ≤ j ∧ j < bi + n ∧ j < tbl.length) := by
          intro hm
          rw [D2 j, if_pos hm] at hpj
          exact absurd hpj (lt_irrefl 0)
        have hTj : entry (fill_range 0 tbl bi n) j 0 = entry tbl j 0 := by
          rw [D2 j, if_neg hjm]
        rw [hTj] at hpj ⊢
        obtain ⟨hjN, hjrun⟩ := (hok j hj').2 hpj
        refine ⟨hjN, fun k hk1 hk2 => ?_⟩
        have holdk : entry tbl k 0 = -1 := hjrun k hk1 hk2
        have hkm : ¬(bi ≤ k ∧ k < bi + n ∧ k < tbl.length) := by
          rintro ⟨hm1, hm2, hm3⟩
          have hjlen : j < tbl.length := by omega
          have hcases : j < bi ∨ bi + n ≤ j := by omega
          rcases hcases with hlt | hge
          · have h5 : entry tbl bi 0 = -1 := hjrun bi (by omega) (by omega)
            rw [h5] at hpos
            exact absurd hpos (by norm_num)
          · omega
        rw [D2 k, if_neg hkm]
        exact holdk

theorem reachable_tableInv (p : MemPool) (h : Reachable p) : TableInv p := by
  induction h with
  | init m bs nb q hb hn hinit => exact tableInv_init (some m) bs nb true true q hinit
  | step_alloc q size hq hsz ih => exact tableInv_alloc q size ih
  | step_free q ptr hq ih => exact tableInv_free q ptr ih

/-! ## Helper computation lemmas -/

theorem entry_mark_run (tbl : List Int) (i needed j : Nat)
    (hilen : i < tbl.length) :
    entry (fill_range (-1) (tbl.set i (needed : Int)) (i + 1) (needed - 1))
        j 0 =
      if j = i then (needed : Int)
      else if i < j ∧ j < i + needed ∧ j < tbl.length then -1
      else entry tbl j 0 := by
  rw [entry_fill_range, List.length_set, entry_set]
  by_cases hji : j = i
  · subst hji
    rw [if_neg (by omega), if_pos ⟨rfl, hilen⟩, if_pos rfl]
  · rw [if_neg hji]
    by_cases hmid : i + 1 ≤ j ∧ j < i + 1 + (needed - 1) ∧ j < tbl.length
    · rw [if_pos hmid, if_pos (by omega)]
    · rw [if_neg hmid, if_neg (fun hh => hji hh.1.symm), if_neg (by omega)]

theorem pool_free_head (p : MemPool) (off : Nat)
    (h1 : off % p.block_size = 0)
    (h2 : off / p.block_size < p.num_blocks)
    (h3 : 0 < entry p.allocation_sizes (off / p.block_size) 0)
    (h4 : off / p.block_size +
        (entry p.allocation_sizes (off / p.block_size) 0).toNat ≤
      p.num_blocks) :
    pool_free p (some off) =
      { p with
        allocation_sizes :=
          fill_range 0 p.allocation_sizes (off / p.block_size)
            (entry p.allocation_sizes (off / p.block_size) 0).toNat
        free_blocks :=
          p.free_blocks +
            (entry p.allocation_sizes (off / p.block_size) 0).toNat } := by
  have h1' : ¬(off % p.block_size ≠ 0) := not_not_intro h1
  have h2' : ¬(p.num_blocks ≤ off / p.block_size) := not_le.mpr h2
  have h3' : ¬(entry p.allocation_sizes (off / p.block_size) 0 ≤ 0) :=
    not_le.mpr h3
  have h4' : ¬(p.num_blocks <
      off / p.block_size +
        (entry p.allocation_sizes (off / p.block_size) 0).toNat) :=
    not_lt.mpr h4
  simp [pool_free, h1', h2', h3', h4']

theorem pool_free_reject (p : MemPool) (off : Nat)
    (h : off % p.block_size ≠ 0 ∨
         p.num_blocks ≤ off / p.block_size ∨
         entry p.allocation_sizes (off / p.block_size) 0 ≤ 0 ∨
         p.num_blocks <
           off / p.block_size +
             (entry p.allocation_sizes (off / p.block_size) 0).toNat) :
    pool_free p (some off) = p := by
  rcases pool_free_cases p (some off) with hc | ⟨off2, heq, hal, hbi, hpos, hbound, he⟩
  · exact hc
  · injection heq with heq
    subst heq
    rcases h with h | h | h | h
    · exact absurd hal h
    · omega
    · omega
    · omega

/-! ## Claim theorems -/

/-- C1: every pool state reachable from `pool_init` by any sequence of
`pool_alloc` and `pool_free` calls satisfies the allocation-table invariant:
the table has length `num_blocks`; every head entry of value `N` at index `i`
has entries `i+1 … i+N-1` equal to `-1` and `i+N ≤ num_blocks`; every entry
is `0`, `-1`, or a positive head value; and `free_blocks` equals the number
of zero entries. -/
theorem claim1_reachable_table_invariant (p : MemPool) (h : Reachable p) :
    TableInv p :=
  reachable_tableInv p h

theorem claim1_witness : TableInv ⟨7, 1, 4, 4, [0, 0, 0, 0]⟩ :=
  claim1_reachable_table_invariant _
    (Reachable.init 7 1 4 _ (by decide) (by decide) rfl)

/-- C4: on a well-formed pool, `pool_alloc` fails whenever the request is `0`
or exceeds `block_size * free_blocks` computed exactly (the wrapped product
the code compares against is never larger than the exact one). -/
theorem claim4_alloc_fast_reject (p : MemPool) (size : Nat) (hwf : WF p)
    (h : size = 0 ∨ p.block_size * p.free_blocks < size) :
    (pool_alloc p size).1 = none := by
  rcases h with h0 | hcap
  · simp [pool_alloc, h0]
  · have hs0 : size ≠ 0 := by omega
    have hlt : (p.block_size * p.free_blocks) % WSIZE < size :=
      lt_of_le_of_lt (Nat.mod_le _ _) hcap
    simp [pool_alloc, hs0, hlt]

theorem claim4_witness :
    WF ⟨0, 1, 4, 4, [0, 0, 0, 0]⟩ ∧
    (pool_alloc ⟨0, 1, 4, 4, [0, 0, 0, 0]⟩ 0).1 = none ∧
    (pool_alloc ⟨0, 1, 4, 4, [0, 0, 0, 0]⟩ 9).1 = none :=
  ⟨by decide, claim4_alloc_fast_reject _ 0 (by decide) (Or.inl rfl),
   claim4_alloc_fast_reject _ 9 (by decide) (Or.inr (by decide))⟩

/-- C6: whenever `pool_alloc` fails, the pool is completely unchanged: the
allocation table and `free_blocks` keep their prior values. -/
theorem claim6_alloc_fail_no_partial (p : MemPool) (size : Nat) (hwf : WF p)
    (h : (pool_alloc p size).1 = none) :
    (pool_alloc p size).2.allocation_sizes = p.allocation_sizes ∧
    (pool_alloc p size).2.free_blocks = p.free_blocks := by
  rcases pool_alloc_cases p size with hc | ⟨i, hf, he, -, -⟩
  · rw [hc]; exact ⟨rfl, rfl⟩
  · rw [he] at h
    simp at h

theorem claim6_witness :
    WF ⟨0, 1, 2, 0, [1, -1]⟩ ∧
    (pool_alloc ⟨0, 1, 2, 0, [1, -1]⟩ 1).1 = none ∧
    ((pool_alloc ⟨0, 1, 2, 0, [1, -1]⟩ 1).2.allocation_sizes = [1, -1] ∧
     (pool_alloc ⟨0, 1, 2, 0, [1, -1]⟩ 1).2.free_blocks = 0) :=
  ⟨by decide, by decide,
   claim6_alloc_fail_no_partial _ 1 (by decide) (by decide)⟩

/-- C7: on a well-formed pool, `pool_free` of a misaligned offset, an
out-of-range block index, a free entry, a continuation entry, or a head whose
recorded run would extend past `num_blocks`, is a silent no-op; and freeing
the same address twice is idempotent, so a double free leaves the pool (in
particular `free_blocks`) unchanged after the second call. -/
theorem claim7_free_invalid_noop (p : MemPool) (hwf : WF p) :
    (∀ off : Nat,
      (off % p.block_size ≠ 0 ∨
       p.num_blocks ≤ off / p.block_size ∨
       entry p.allocation_sizes (off / p.block_size) 0 = 0 ∨
       entry p.allocation_sizes (off / p.block_size) 0 = -1 ∨
       (0 < entry p.allocation_sizes (off / p.block_size) 0 ∧
        p.num_blocks <
          off / p.block_size +
            (entry p.allocation_sizes (off / p.block_size) 0).toNat)) →
      pool_free p (some off) = p) ∧
    ∀ ptr : Option Nat, pool_free (pool_free p ptr) ptr = pool_free p ptr := by
  obtain ⟨-, -, -, -, -, hlenp⟩ := hwf
  constructor
  · intro off h
    apply pool_free_reject
    rcases h with h | h | h | h | h
    · exact Or.inl h
    · exact Or.inr (Or.inl h)
    · exact Or.inr (Or.inr (Or.inl (le_of_eq h)))
    · refine Or.inr (Or.inr (Or.inl ?_))
      rw [h]
      norm_num
    · exact Or.inr (Or.inr (Or.inr h.2))
  · intro ptr
    rcases pool_free_cases p ptr with hc | ⟨off, rfl, hal, hbi, hpos, hbound, he⟩
    · rw [hc]; exact hc
    · rw [he]
      apply pool_free_reject
      refine Or.inr (Or.inr (Or.inl ?_))
      show entry
          (fill_range 0 p.allocation_sizes (off / p.block_size)
            (entry p.allocation_sizes (off / p.block_size) 0).toNat)
          (off / p.block_size) 0 ≤ 0
      have hc1 : off / p.block_size < p.allocation_sizes.length := by omega
      rw [entry_fill_range, if_pos ⟨le_refl _, by omega, hc1⟩]

theorem claim7_witness :
    WF ⟨0, 4, 2, 1, [1, 0]⟩ ∧
    pool_free ⟨0, 4, 2, 1, [1, 0]⟩ (some 2) = ⟨0, 4, 2, 1, [1, 0]⟩ ∧
    pool_free (pool_free ⟨0, 4, 2, 1, [1, 0]⟩ (some 0)) (some 0) =
      pool_free ⟨0, 4, 2, 1, [1, 0]⟩ (some 0) :=
  ⟨by decide,
   (claim7_free_invalid_noop _ (by decide)).1 2 (Or.inl (by decide)),
   (claim7_free_invalid_noop _ (by decide)).2 (some 0)⟩

/-- C10: `pool_free` with a null pointer returns immediately and leaves the
pool unchanged. -/
theorem claim10_free_null_noop (p : MemPool) (hwf : WF p) :
    pool_free p none = p := rfl

theorem claim10_witness :
    WF ⟨0, 1, 4, 3, [1, 0, 0, 0]⟩ ∧
    pool_free ⟨0, 1, 4, 3, [1, 0, 0, 0]⟩ none = ⟨0, 1, 4, 3, [1, 0, 0, 0]⟩ :=
  ⟨by decide, claim10_free_null_noop _ (by decide)⟩

/-- C2: after a successful `pool_init`, if `pool_alloc size` succeeds then
`pool_free` of the returned address restores `free_blocks` to `num_blocks`
and every allocation-table entry to `0`. -/
theorem claim2_roundtrip (m bs nb size : Nat) (p0 : MemPool)
    (hinit : pool_init (some m) bs nb true true = some p0)
    (a : Nat) (p1 : MemPool)
    (halloc : pool_alloc p0 size = (some a, p1)) :
    (pool_free p1 (some a)).free_blocks = nb ∧
    (pool_free p1 (some a)).allocation_sizes = List.replicate nb 0 := by
  have hbs0 : bs ≠ 0 := by
    intro hx; simp [pool_init, hx] at hinit
  have hnb0 : nb ≠ 0 := by
    intro hx; simp [pool_init, hx] at hinit
  simp [pool_init, hbs0, hnb0] at hinit
  subst hinit
  rcases pool_alloc_cases ⟨m, bs, nb, nb, List.replicate nb 0⟩ size with
    hc | ⟨i, hf, he, hs0, hcap⟩
  · rw [hc] at halloc
    exact absurd (congrArg Prod.fst halloc) (by simp)
  · rw [he] at halloc
    rw [Prod.mk.injEq] at halloc
    obtain ⟨ha, hp1⟩ := halloc
    subst hp1
    dsimp only at ha hf ⊢
    set needed := ((size + bs - 1) % WSIZE) / bs with hneed
    obtain ⟨-, hbound, hent, hrun, hmin⟩ :=
      fff_some (List.replicate nb 0) needed nb (nb + 1) 0 i hf
    have hi0 : i = 0 := by
      by_contra hne
      have h1 : entry (List.replicate nb 0) 0 1 = 0 := by
        rw [entry_replicate, if_pos (by omega)]
      have h2 : run_free (List.replicate nb 0) 0 needed = true := by
        rw [run_free_iff]
        intro j hj
        rw [Nat.zero_add, entry_replicate, if_pos (by omega)]
      exact hmin 0 (by omega) (by omega) ⟨h1, h2⟩
    subst hi0
    have ha0 : a = 0 := by
      injection ha with ha
      simpa using ha.symm
    subst ha0
    have hrep0 : (0 : Nat) < (List.replicate nb (0 : Int)).length := by
      rw [List.length_replicate]; omega
    have DT := fun j => entry_mark_run (List.replicate nb 0) 0 needed j hrep0
    have hT1len :
        (fill_range (-1) ((List.replicate nb 0).set 0 (needed : Int))
          (0 + 1) (needed - 1)).length = nb := by
      rw [length_fill_range, List.length_set, List.length_replicate]
    rcases Nat.eq_zero_or_pos needed with h0 | hpos
    · -- the wrapped request needs zero blocks: the marking is a no-op and so
      -- is the free (the head entry is 0)
      have hTeq : fill_range (-1) ((List.replicate nb 0).set 0 (needed : Int))
          (0 + 1) (needed - 1) = List.replicate nb 0 := by
        apply list_eq_of_entry
        · rw [hT1len, List.length_replicate]
        · intro j hj
          rw [DT j]
          by_cases hj0 : j = 0
          · subst hj0
            rw [if_pos rfl, h0, entry_replicate, if_pos (by omega)]
            rfl
          · rw [if_neg hj0, if_neg (by omega)]
      have hnoop := pool_free_reject
        ⟨m, bs, nb, nb - needed,
          fill_range (-1) ((List.replicate nb 0).set 0 (needed : Int))
            (0 + 1) (needed - 1)⟩ 0
        (Or.inr (Or.inr (Or.inl (by
          show entry (fill_range (-1)
              ((List.replicate nb 0).set 0 (needed : Int))
              (0 + 1) (needed - 1)) (0 / bs) 0 ≤ 0
          rw [Nat.zero_div, hTeq, entry_replicate, if_pos (by omega)]))))
      rw [hnoop]
      refine ⟨by show nb - needed = nb; omega, ?_⟩
      show fill_range (-1) ((List.replicate nb 0).set 0 (needed : Int))
          (0 + 1) (needed - 1) = List.replicate nb 0
      exact hTeq
    · -- at least one block is reserved; the free recovers the whole run
      have hent0 : entry (fill_range (-1)
          ((List.replicate nb 0).set 0 (needed : Int))
          (0 + 1) (needed - 1)) 0 0 = (needed : Int) := by
        rw [DT 0, if_pos rfl]
      have he2 := pool_free_head
        ⟨m, bs, nb, nb - needed,
          fill_range (-1) ((List.replicate nb 0).set 0 (needed : Int))
            (0 + 1) (needed - 1)⟩ 0
        (by show 0 % bs = 0; exact Nat.zero_mod bs)
        (by show 0 / bs < nb; rw [Nat.zero_div]; omega)
        (by
          show 0 < entry (fill_range (-1)
              ((List.replicate nb 0).set 0 (needed : Int))
              (0 + 1) (needed - 1)) (0 / bs) 0
          rw [Nat.zero_div, hent0]
          exact_mod_cast hpos)
        (by
          show 0 / bs + (entry (fill_range (-1)
              ((List.replicate nb 0).set 0 (needed : Int))
              (0 + 1) (needed - 1)) (0 / bs) 0).toNat ≤ nb
          rw [Nat.zero_div, hent0, Int.toNat_natCast]
          omega)
      rw [he2]
      dsimp only
      rw [Nat.zero_div, hent0, Int.toNat_natCast]
      refine ⟨by omega, ?_⟩
      apply list_eq_of_entry
      · rw [length_fill_range, hT1len, List.length_replicate]
      · intro j hj
        rw [length_fill_range, hT1len] at hj
        rw [entry_fill_range]
        by_cases hj0 : 0 ≤ j ∧ j < 0 + needed ∧
            j < (fill_range (-1) ((List.replicate nb 0).set 0 (needed : Int))
              (0 + 1) (needed - 1)).length
        · rw [if_pos hj0, entry_replicate, if_pos (by omega)]
        · rw [if_neg hj0, DT j]
          have hjn : needed ≤ j := by
            rw [hT1len] at hj0
            omega
          rw [if_neg (by omega), if_neg (by omega)]

theorem claim2_witness :
    (pool_free ⟨0, 1, 4, 2, [2, -1, 0, 0]⟩ (some 0)).free_blocks = 4 ∧
    (pool_free ⟨0, 1, 4, 2, [2, -1, 0, 0]⟩ (some 0)).allocation_sizes =
      List.replicate 4 0 :=
  claim2_roundtrip 0 1 4 2 ⟨0, 1, 4, 4, [0, 0, 0, 0]⟩ rfl
    0 ⟨0, 1, 4, 2, [2, -1, 0, 0]⟩ (by decide)

theorem le_zero_count_of_run (tbl : List Int) (i n : Nat)
    (hle : i + n ≤ tbl.length)
    (hall : ∀ k, k < n → entry tbl (i + k) 0 = 0) :
    n ≤ zero_count tbl := by
  have := zero_count_fill_nonzero 1 one_ne_zero tbl i n hle hall
  omega

/-- C3 counterexample: on the valid all-free pool with `block_size = 2^63`
and `num_blocks = 2`, the request `size = 1` satisfies
`0 < size ≤ block_size * free_blocks` (exact arithmetic) and a fitting run
exists at index 0, yet `pool_alloc` fails, because the capacity check
computes `block_size * free_blocks` in wrapping `size_t` arithmetic
(`2^64 mod 2^64 = 0 < 1`). -/
theorem claim3_counterexample :
    WF ⟨0, 2 ^ 63, 2, 2, [0, 0]⟩ ∧ TableInv ⟨0, 2 ^ 63, 2, 2, [0, 0]⟩ ∧
    0 < 1 ∧
    1 ≤ (⟨0, 2 ^ 63, 2, 2, [0, 0]⟩ : MemPool).block_size *
        (⟨0, 2 ^ 63, 2, 2, [0, 0]⟩ : MemPool).free_blocks ∧
    FitsAt ⟨0, 2 ^ 63, 2, 2, [0, 0]⟩
      (cdiv 1 (⟨0, 2 ^ 63, 2, 2, [0, 0]⟩ : MemPool).block_size) 0 ∧
    (pool_alloc ⟨0, 2 ^ 63, 2, 2, [0, 0]⟩ 1).1 = none :=
  ⟨by decide, by decide, by decide, by decide, by decide, by decide⟩

theorem zero_count_le_length (tbl : List Int) : zero_count tbl ≤ tbl.length := by
  induction tbl with
  | nil => exact Nat.le_refl 0
  | cons e rest ih =>
    show (if e = 0 then 1 else 0) + zero_count rest ≤ rest.length + 1
    by_cases he : e = 0 <;> simp [he] <;> omega

/-- C3 (amended): on a valid pool whose region fits the address space
(`num_blocks * block_size < 2^64`) and for a request with
`0 < size ≤ block_size * free_blocks` whose ceiling numerator does not wrap
(`size + block_size - 1 < 2^64`), if a fitting run exists then `pool_alloc`
picks the smallest fitting index `i`, sets entry `i` to `blocks_needed`,
sets entries `i+1 … i+blocks_needed-1` to `-1`, decrements `free_blocks` by
`blocks_needed`, and returns the offset `i * block_size`. -/
theorem claim3_first_fit (p : MemPool) (size : Nat) (hwf : WF p)
    (hinv : TableInv p)
    (hframe : p.num_blocks * p.block_size < WSIZE)
    (hpos : 0 < size)
    (hcap : size ≤ p.block_size * p.free_blocks)
    (hwrap : size + p.block_size - 1 < WSIZE)
    (t : Nat) (hfit : FitsAt p (cdiv size p.block_size) t) :
    ∃ i q, pool_alloc p size = (some (i * p.block_size), q) ∧
      FitsAt p (cdiv size p.block_size) i ∧
      (∀ u, FitsAt p (cdiv size p.block_size) u → i ≤ u) ∧
      entry q.allocation_sizes i 0 = (cdiv size p.block_size : Int) ∧
      (∀ j, i < j → j < i + cdiv size p.block_size →
        entry q.allocation_sizes j 0 = -1) ∧
      q.free_blocks + cdiv size p.block_size = p.free_blocks := by
  obtain ⟨hbs, hnbpos, -, -, -, hlen⟩ := hwf
  obtain ⟨hleninv, hfree, -⟩ := hinv
  have hbn1 : 1 ≤ cdiv size p.block_size := by
    rw [cdiv, Nat.le_div_iff_mul_le hbs]
    omega
  have hfreenb : p.free_blocks ≤ p.num_blocks := by
    rw [hfree, ← hleninv]
    exact zero_count_le_length p.allocation_sizes
  have hcapexact :
      (p.block_size * p.free_blocks) % WSIZE =
        p.block_size * p.free_blocks := by
    apply Nat.mod_eq_of_lt
    calc p.block_size * p.free_blocks
        ≤ p.block_size * p.num_blocks := Nat.mul_le_mul_left _ hfreenb
      _ < WSIZE := by rw [Nat.mul_comm]; exact hframe
  have hneedex : ((size + p.block_size - 1) % WSIZE) / p.block_size =
      cdiv size p.block_size := by
    rw [Nat.mod_eq_of_lt hwrap, cdiv]
  have hs0 : size ≠ 0 := by omega
  have hcapfail : ¬((p.block_size * p.free_blocks) % WSIZE < size) := by
    rw [hcapexact]
    omega
  cases hffcase : find_first_fit p.allocation_sizes
      (((size + p.block_size - 1) % WSIZE) / p.block_size) p.num_blocks
      (p.num_blocks + 1) 0 with
  | none =>
    exfalso
    have hnone := fff_none p.allocation_sizes
        (((size + p.block_size - 1) % WSIZE) / p.block_size) p.num_blocks
        (p.num_blocks + 1) 0 (by omega) hffcase
    rw [hneedex] at hnone
    obtain ⟨hft1, hft2⟩ := hfit
    refine hnone t (by omega) hft1 ⟨?_, ?_⟩
    · have h1 := hft2 0 (by omega)
      rwa [Nat.add_zero] at h1
    · rw [run_free_iff]
      exact hft2
  | some i =>
    rcases pool_alloc_cases p size with hc | ⟨i2, hf2, he2, -, -⟩
    · exfalso
      simp [pool_alloc, hs0, hcapfail, hffcase] at hc
    · rw [hneedex] at he2 hf2
      obtain ⟨-, hbound, hent, hrun, hminim⟩ :=
        fff_some p.allocation_sizes (cdiv size p.block_size) p.num_blocks
          (p.num_blocks + 1) 0 i2 hf2
    
      have hilen : i2 < p.allocation_sizes.length :=
        entry_lt_length p.allocation_sizes i2 hent
      have hzero : ∀ k, k < cdiv size p.block_size →
          entry p.allocation_sizes (i2 + k) 0 = 0 := by
        intro k hk
        have h1 := (run_free_iff _ _ _).mp hrun k hk
        have h2 : i2 + k < p.allocation_sizes.length := by omega
        rw [entry_indep _ _ 0 1 h2]
        exact h1
      have hbnfree : cdiv size p.block_size ≤ p.free_blocks := by
        rw [hfree]
        exact le_zero_count_of_run p.allocation_sizes i2 _ (by omega) hzero
      have hoff : (i2 * p.block_size) % WSIZE = i2 * p.block_size := by
        apply Nat.mod_eq_of_lt
        calc i2 * p.block_size
            < p.num_blocks * p.block_size := by
              apply Nat.mul_lt_mul_of_lt_of_le _ (le_refl _) hbs
              omega
          _ < WSIZE := hframe
      rw [hoff] at he2
      refine ⟨i2, _, he2, ⟨hbound, fun j hj => (run_free_iff _ _ _).mp hrun j hj⟩,
        ?_, ?_, ?_, ?_⟩
      · intro u hu
        by_contra hlt
        push_neg at hlt
        refine hminim u (by omega) hlt ⟨?_, ?_⟩
        · have h1 := hu.2 0 (by omega)
          rwa [Nat.add_zero] at h1
        · rw [run_free_iff]
          exact hu.2
      · show entry (fill_range (-1)
            (p.allocation_sizes.set i2 ((cdiv size p.block_size : Nat) : Int))
            (i2 + 1) (cdiv size p.block_size - 1)) i2 0 =
          (cdiv size p.block_size : Int)
        rw [entry_mark_run _ _ _ _ hilen, if_pos rfl]
      · intro j hj1 hj2
        show entry (fill_range (-1)
            (p.allocation_sizes.set i2 ((cdiv size p.block_size : Nat) : Int))
            (i2 + 1) (cdiv size p.block_size - 1)) j 0 = -1
        rw [entry_mark_run _ _ _ _ hilen, if_neg (by omega),
          if_pos ⟨hj1, hj2, by omega⟩]
      · show p.free_blocks - cdiv size p.block_size + cdiv size p.block_size =
          p.free_blocks
        omega

theorem claim3_witness :
    ∃ i q, pool_alloc ⟨0, 1, 4, 2, [1, 0, 1, 0]⟩ 1 = (some (i * 1), q) ∧
      FitsAt ⟨0, 1, 4, 2, [1, 0, 1, 0]⟩ (cdiv 1 1) i ∧
      (∀ u, FitsAt ⟨0, 1, 4, 2, [1, 0, 1, 0]⟩ (cdiv 1 1) u → i ≤ u) ∧
      entry q.allocation_sizes i 0 = (cdiv 1 1 : Int) ∧
      (∀ j, i < j → j < i + cdiv 1 1 → entry q.allocation_sizes j 0 = -1) ∧
      q.free_blocks + cdiv 1 1 = 2 :=
  claim3_first_fit ⟨0, 1, 4, 2, [1, 0, 1, 0]⟩ 1 (by decide) (by decide)
    (by decide) (by decide) (by decide) (by decide) 1 (by decide)

/-- C5 counterexample: on the valid pool with `block_size = 2^63 + 1` and a
single free block, requesting `size = block_size` passes the capacity check,
and `pool_alloc` succeeds (returns offset `0`), yet reserves no block at all:
the ceiling numerator `size + block_size - 1 = 2^64 + 1` wraps to `1` in
`size_t`, so the computed block count is `0` instead of
`ceil(size / block_size) = 1`; the head entry is written as `0` and
`free_blocks` is not decremented. -/
theorem claim5_counterexample :
    WF ⟨0, 2 ^ 63 + 1, 1, 1, [0]⟩ ∧ TableInv ⟨0, 2 ^ 63 + 1, 1, 1, [0]⟩ ∧
    0 < 2 ^ 63 + 1 ∧
    (pool_alloc ⟨0, 2 ^ 63 + 1, 1, 1, [0]⟩ (2 ^ 63 + 1)).1 = some 0 ∧
    cdiv (2 ^ 63 + 1) (⟨0, 2 ^ 63 + 1, 1, 1, [0]⟩ : MemPool).block_size = 1 ∧
    entry (pool_alloc ⟨0, 2 ^ 63 + 1, 1, 1, [0]⟩
        (2 ^ 63 + 1)).2.allocation_sizes 0 0 = 0 ∧
    ¬((pool_alloc ⟨0, 2 ^ 63 + 1, 1, 1, [0]⟩ (2 ^ 63 + 1)).2.free_blocks +
        cdiv (2 ^ 63 + 1)
          (⟨0, 2 ^ 63 + 1, 1, 1, [0]⟩ : MemPool).block_size =
      (⟨0, 2 ^ 63 + 1, 1, 1, [0]⟩ : MemPool).free_blocks) :=
  ⟨by decide, by decide, by decide, by decide, by decide, by decide, by decide⟩

/-- C5 (amended): on a valid pool, if the ceiling numerator does not wrap
(`size + block_size - 1 < 2^64`) and `pool_alloc size` succeeds, then exactly
`ceil(size / block_size)` blocks are reserved: `free_blocks` decreases by
exactly that amount and the head entry written at the returned index equals
it. -/
theorem claim5_reserves_ceil (p : MemPool) (size : Nat) (hwf : WF p)
    (hinv : TableInv p) (hpos : 0 < size)
    (hwrap : size + p.block_size - 1 < WSIZE)
    (a : Nat) (q : MemPool) (h : pool_alloc p size = (some a, q)) :
    q.free_blocks + cdiv size p.block_size = p.free_blocks ∧
    ∃ i, a = (i * p.block_size) % WSIZE ∧
      entry q.allocation_sizes i 0 = (cdiv size p.block_size : Int) ∧
      FitsAt p (cdiv size p.block_size) i := by
  obtain ⟨hbs, hnbpos, -, -, -, hlen⟩ := hwf
  obtain ⟨hleninv, hfree, -⟩ := hinv
  have hneedex : ((size + p.block_size - 1) % WSIZE) / p.block_size =
      cdiv size p.block_size := by
    rw [Nat.mod_eq_of_lt hwrap, cdiv]
  rcases pool_alloc_cases p size with hc | ⟨i, hf, he, -, -⟩
  · rw [hc] at h
    exact absurd (congrArg Prod.fst h) (by simp)
  · rw [hneedex] at he hf
    rw [he, Prod.mk.injEq] at h
    obtain ⟨ha, hq⟩ := h
    subst hq
    obtain ⟨-, hbound, hent, hrun, -⟩ :=
      fff_some p.allocation_sizes (cdiv size p.block_size) p.num_blocks
        (p.num_blocks + 1) 0 i hf
    have hilen : i < p.allocation_sizes.length :=
      entry_lt_length p.allocation_sizes i hent
    have hzero : ∀ k, k < cdiv size p.block_size →
        entry p.allocation_sizes (i + k) 0 = 0 := by
      intro k hk
      have h1 := (run_free_iff _ _ _).mp hrun k hk
      have h2 : i + k < p.allocation_sizes.length := by omega
      rw [entry_indep _ _ 0 1 h2]
      exact h1
    have hbnfree : cdiv size p.block_size ≤ p.free_blocks := by
      rw [hfree]
      exact le_zero_count_of_run p.allocation_sizes i _ (by omega) hzero
    constructor
    · show p.free_blocks - cdiv size p.block_size + cdiv size p.block_size =
        p.free_blocks
      omega
    · refine ⟨i, ?_, ?_, ⟨hbound, fun j hj => (run_free_iff _ _ _).mp hrun j hj⟩⟩
      · injection ha with ha
        exact ha.symm
      · show entry (fill_range (-1)
            (p.allocation_sizes.set i ((cdiv size p.block_size : Nat) : Int))
            (i + 1) (cdiv size p.block_size - 1)) i 0 =
          (cdiv size p.block_size : Int)
        rw [entry_mark_run _ _ _ _ hilen, if_pos rfl]

theorem claim5_witness :
    (⟨0, 4, 3, 1, [2, -1, 0]⟩ : MemPool).free_blocks + cdiv 5 4 =
      (⟨0, 4, 3, 3, [0, 0, 0]⟩ : MemPool).free_blocks ∧
    ∃ i, 0 = (i * (⟨0, 4, 3, 3, [0, 0, 0]⟩ : MemPool).block_size) % WSIZE ∧
      entry (⟨0, 4, 3, 1, [2, -1, 0]⟩ : MemPool).allocation_sizes i 0 =
        (cdiv 5 (⟨0, 4, 3, 3, [0, 0, 0]⟩ : MemPool).block_size : Int) ∧
      FitsAt ⟨0, 4, 3, 3, [0, 0, 0]⟩
        (cdiv 5 (⟨0, 4, 3, 3, [0, 0, 0]⟩ : MemPool).block_size) i :=
  claim5_reserves_ceil ⟨0, 4, 3, 3, [0, 0, 0]⟩ 5 (by decide) (by decide)
    (by decide) (by decide) 0 ⟨0, 4, 3, 1, [2, -1, 0]⟩ (by decide)

/-- C8: `pool_init` returns no pool exactly when the memory reference is
absent, `block_size = 0`, `num_blocks = 0`, or one of the two metadata
allocations fails; on success the allocation table has length `num_blocks`
with every entry `0`, `free_blocks` equals `num_blocks`, and the caller's
memory reference is stored unchanged. -/
theorem claim8_init_spec (memory : Option Nat) (bs nb : Nat) (c t : Bool) :
    (pool_init memory bs nb c t = none ↔
      memory = none ∨ bs = 0 ∨ nb = 0 ∨ c = false ∨ t = false) ∧
    ∀ p, pool_init memory bs nb c t = some p →
      p.allocation_sizes.length = nb ∧
      (∀ e ∈ p.allocation_sizes, e = 0) ∧
      p.free_blocks = nb ∧
      memory = some p.memory := by
  cases memory with
  | none =>
    exact ⟨by simp [pool_init], fun p hp => by simp [pool_init] at hp⟩
  | some m =>
    by_cases h1 : bs = 0 ∨ nb = 0
    · refine ⟨?_, fun p hp => ?_⟩
      · simp only [pool_init, if_pos h1]
        simp [h1]
        tauto
      · rw [pool_init.eq_def] at hp
        simp only [if_pos h1] at hp
        cases hp
    · cases c with
      | false =>
        refine ⟨?_, fun p hp => ?_⟩
        · simp [pool_init, h1]
        · simp [pool_init, h1] at hp
      | true =>
        cases t with
        | false =>
          refine ⟨?_, fun p hp => ?_⟩
          · simp [pool_init, h1]
          · simp [pool_init, h1] at hp
        | true =>
          refine ⟨?_, fun p hp => ?_⟩
          · simp [pool_init, h1]
          · simp [pool_init, h1] at hp
            subst hp
            refine ⟨by simp, ?_, rfl, rfl⟩
            intro e he
            exact List.eq_of_mem_replicate he

theorem claim8_witness :
    pool_init none 1 1 true true = none ∧
    ((⟨3, 2, 2, 2, [0, 0]⟩ : MemPool).allocation_sizes.length = 2 ∧
     (∀ e ∈ (⟨3, 2, 2, 2, [0, 0]⟩ : MemPool).allocation_sizes, e = 0) ∧
     (⟨3, 2, 2, 2, [0, 0]⟩ : MemPool).free_blocks = 2 ∧
     some 3 = some (⟨3, 2, 2, 2, [0, 0]⟩ : MemPool).memory) :=
  ⟨(claim8_init_spec none 1 1 true true).1.mpr (Or.inl rfl),
   (claim8_init_spec (some 3) 2 2 true true).2 ⟨3, 2, 2, 2, [0, 0]⟩ rfl⟩

/-- C9: a reachable fragmented state — obtained by allocating three runs
(2, 1 and 2 blocks) on a fresh five-block pool and freeing the first and
third — on which a request of `3` bytes fails even though
`size ≤ block_size * free_blocks` (aggregate free space suffices), because
no contiguous run of `ceil(size / block_size) = 3` free blocks exists. -/
theorem claim9_fragmentation :
    Reachable ⟨0, 1, 5, 4, [0, 0, 1, 0, 0]⟩ ∧
    0 < 3 ∧
    3 ≤ (⟨0, 1, 5, 4, [0, 0, 1, 0, 0]⟩ : MemPool).block_size *
        (⟨0, 1, 5, 4, [0, 0, 1, 0, 0]⟩ : MemPool).free_blocks ∧
    (∀ i, ¬FitsAt ⟨0, 1, 5, 4, [0, 0, 1, 0, 0]⟩
        (cdiv 3 (⟨0, 1, 5, 4, [0, 0, 1, 0, 0]⟩ : MemPool).block_size) i) ∧
    (pool_alloc ⟨0, 1, 5, 4, [0, 0, 1, 0, 0]⟩ 3).1 = none := by
  refine ⟨?_, by decide, by decide, ?_, by decide⟩
  · have h0 : Reachable ⟨0, 1, 5, 5, [0, 0, 0, 0, 0]⟩ :=
      Reachable.init 0 1 5 _ (by decide) (by decide) rfl
    have h1 := Reachable.step_alloc _ 2 h0 (by decide)
    rw [show (pool_alloc ⟨0, 1, 5, 5, [0, 0, 0, 0, 0]⟩ 2).2 =
        ⟨0, 1, 5, 3, [2, -1, 0, 0, 0]⟩ from rfl] at h1
    have h2 := Reachable.step_alloc _ 1 h1 (by decide)
    rw [show (pool_alloc ⟨0, 1, 5, 3, [2, -1, 0, 0, 0]⟩ 1).2 =
        ⟨0, 1, 5, 2, [2, -1, 1, 0, 0]⟩ from rfl] at h2
    have h3 := Reachable.step_alloc _ 2 h2 (by decide)
    rw [show (pool_alloc ⟨0, 1, 5, 2, [2, -1, 1, 0, 0]⟩ 2).2 =
        ⟨0, 1, 5, 0, [2, -1, 1, 2, -1]⟩ from rfl] at h3
    have h4 := Reachable.step_free _ (some 0) h3
    rw [show pool_free ⟨0, 1, 5, 0, [2, -1, 1, 2, -1]⟩ (some 0) =
        ⟨0, 1, 5, 2, [0, 0, 1, 2, -1]⟩ from rfl] at h4
    have h5 := Reachable.step_free _ (some 3) h4
    rw [show pool_free ⟨0, 1, 5, 2, [0, 0, 1, 2, -1]⟩ (some 3) =
        ⟨0, 1, 5, 4, [0, 0, 1, 0, 0]⟩ from rfl] at h5
    exact h5
  · intro i hfit
    rw [show cdiv 3 (⟨0, 1, 5, 4, [0, 0, 1, 0, 0]⟩ : MemPool).block_size = 3
      from rfl] at hfit
    obtain ⟨hb, hz⟩ := hfit
    have hb5 : i + 3 ≤ 5 := hb
    have h2 := hz (2 - i) (by
      show 2 - i < 3
      omega)
    have he : i + (2 - i) = 2 := by omega
    rw [he] at h2
    exact absurd h2 (by decide)
